import Mathlib

/-!
Verification development for the ExfilServer upload server
(`upload_server.py`).

Strings are embedded as `List Char` (Python `str` is a sequence of code
points) and byte strings as `List Nat` (each element a byte value).  The
on-disk state and the in-memory chunk tracker are embedded as association
lists inside a `ServerState` record; the HTTP handler's upload path is
embedded as a state-passing function on `ServerState`.
-/

set_option maxRecDepth 8000

namespace ExfilServer

/-! ## Generic association-list maps

Python dictionaries (`chunk_tracker`) and the two storage directories are
embedded as association lists with explicit lookup / set / erase. -/

def lookupKV {κ α : Type} [DecidableEq κ] : List (κ × α) → κ → Option α
  | [], _ => none
  | (k, v) :: rest, key => if key = k then some v else lookupKV rest key

def setKV {κ α : Type} [DecidableEq κ] : List (κ × α) → κ → α → List (κ × α)
  | [], key, v => [(key, v)]
  | (k, w) :: rest, key, v =>
    if key = k then (key, v) :: rest else (k, w) :: setKV rest key v

def eraseKV {κ α : Type} [DecidableEq κ] : List (κ × α) → κ → List (κ × α)
  | [], _ => []
  | (k, w) :: rest, key => if key = k then rest else (k, w) :: eraseKV rest key

/-- Well-formedness of a map image of a Python dict: keys occur at most once. -/
def KeysNodup {κ α : Type} (m : List (κ × α)) : Prop := (m.map Prod.fst).Nodup

/-! ## Path helpers (`posixpath`) -/

/-- Index of the last occurrence of `c` in `l` (Python `str.rfind`, as an
`Option` instead of `-1`). -/
def lastIndexOf (c : Char) : List Char → Option Nat
  | [] => none
  | x :: xs =>
    match lastIndexOf c xs with
    | some i => some (i + 1)
    | none => if x = c then some 0 else none

/-- `os.path.basename` (POSIX): everything after the last `'/'`. -/
def basename (p : List Char) : List Char :=
  match lastIndexOf '/' p with
  | none => p
  | some i => p.drop (i + 1)

/-- `os.path.splitext` (POSIX): split at the last `'.'` that lies after the
last `'/'` and has some non-dot character between the slash and the dot
(leading dots of the basename never start an extension). -/
def splitext (p : List Char) : List Char × List Char :=
  let start : Nat :=
    match lastIndexOf '/' p with
    | none => 0
    | some i => i + 1
  match lastIndexOf '.' p with
  | none => (p, [])
  | some d =>
    if start ≤ d ∧ ((p.drop start).take (d - start)).any (fun c => c != '.') then
      (p.take d, p.drop d)
    else (p, [])

/-- Python `l[:k]` for an `Int` bound `k` (a negative bound counts from the
end, clamped at `0`). -/
def pySliceTo (l : List Char) (k : Int) : List Char :=
  if 0 ≤ k then l.take k.toNat else l.take (l.length - (-k).toNat)

/-- Remove every trailing occurrence of `c` (Python `str.rstrip` with a
single-character set). -/
def rstripChar (c : Char) (l : List Char) : List Char :=
  (l.reverse.dropWhile (fun x => x = c)).reverse

/-- `posixpath.join a b` for two path components. -/
def osJoin (a b : List Char) : List Char :=
  if b.head? = some '/' then b
  else if a = [] ∨ a.getLast? = some '/' then a ++ b
  else a ++ '/' :: b

/-- `posixpath.dirname`: the part before the last `'/'` (with trailing
slashes of the head stripped unless the head is all slashes). -/
def osDirname (p : List Char) : List Char :=
  let i : Nat :=
    match lastIndexOf '/' p with
    | none => 0
    | some j => j + 1
  let head := p.take i
  if head ≠ [] ∧ ¬ head.all (fun c => c = '/') then rstripChar '/' head else head

/-! ## `sanitize_filename` (upload_server.py lines 72–100) -/

def MAX_FILENAME_LENGTH : Nat := 255

def MAX_FILE_SIZE : Nat := 100 * 1024 * 1024

/-- The character class of `re.sub(r'[<>:"/\\|?*\x00-\x1f]', '_', ...)`. -/
def dangerousChar (c : Char) : Bool :=
  decide (c ∈ ['<', '>', ':', '"', '/', '\\', '|', '?', '*']) || decide (c.val ≤ 0x1f)

/-- `re.sub(r'[<>:"/\\|?*\x00-\x1f]', '_', filename)`. -/
def replaceDangerous (l : List Char) : List Char :=
  l.map fun c => if dangerousChar c then '_' else c

/-- `filename.strip('. ')`. -/
def stripDotSpace (l : List Char) : List Char :=
  ((l.dropWhile fun c => c = '.' || c = ' ').reverse.dropWhile
      fun c => c = '.' || c = ' ').reverse

/-- The Windows reserved device names guarded against in the source. -/
def reservedNames : List (List Char) :=
  (["CON", "PRN", "AUX", "NUL",
    "COM1", "COM2", "COM3", "COM4", "COM5", "COM6", "COM7", "COM8", "COM9",
    "LPT1", "LPT2", "LPT3", "LPT4", "LPT5", "LPT6", "LPT7", "LPT8",
    "LPT9"]).map String.toList

/-- `if filename.upper() in reserved_names: filename = f"file_{filename}"`.
`str.upper` is embedded per character by `Char.toUpper`, which agrees with
Python on ASCII (the only characters occurring in the reserved names). -/
def applyReserved (l : List Char) : List Char :=
  if l.map Char.toUpper ∈ reservedNames then "file_".toList ++ l else l

/-- `if not filename or filename in ['.', '..']: filename = 'unnamed_file'`. -/
def applyPlaceholder (l : List Char) : List Char :=
  if l = [] ∨ l = ['.'] ∨ l = ['.', '.'] then "unnamed_file".toList else l

/-- The length-limiting step: `name[:MAX_FILENAME_LENGTH-10-len(ext)] + ext`
for names longer than `MAX_FILENAME_LENGTH` (the slice bound may be
negative, hence the `Int` slice). -/
def truncateName (l : List Char) : List Char :=
  if MAX_FILENAME_LENGTH < l.length then
    pySliceTo (splitext l).1
        ((MAX_FILENAME_LENGTH : Int) - 10 - ((splitext l).2.length : Int))
      ++ (splitext l).2
  else l

/-- `sanitize_filename` from the source, stage by stage in source order. -/
def sanitize_filename (filename : List Char) : List Char :=
  if filename = [] then "unnamed_file".toList
  else
    truncateName (applyPlaceholder (applyReserved (stripDotSpace
      (replaceDangerous (basename filename)))))

/-! ## `validate_chunk_params` (lines 102–119)

The `int(...)` parses of the two form fields are outside the embedding; the
function is embedded over the parsed integers. -/

def validate_chunk_params (chunk_index total_chunks : Int) : Option (Nat × Nat) :=
  if chunk_index < 0 ∨ total_chunks < 1 then none
  else if total_chunks ≤ chunk_index then none
  else if 10000 < total_chunks then none
  else some (chunk_index.toNat, total_chunks.toNat)

/-! ## XOR codec (`decrypt_file_data` lines 121–137, `encrypt_file_data`
lines 139–155)

The server key is `Option (List Nat)`: `none` embeds `SERVER_KEY is None`,
and `some key` carries the UTF-8 bytes of the key string.  The loop body
indexes `key_bytes[i % len(key_bytes)]`; when the key is the empty byte
string this raises `ZeroDivisionError` on the first iteration, which the
surrounding `except` turns into `None` — but a zero-iteration loop (empty
input) never raises and returns the empty byte string. -/

def xorLoop (key : List Nat) : Nat → List Nat → Option (List Nat)
  | _, [] => some []
  | i, b :: rest =>
    if key.length = 0 then none
    else
      match xorLoop key (i + 1) rest with
      | none => none
      | some tail => some (Nat.xor b (key.getD (i % key.length) 0) :: tail)

/-- The pure value produced by the XOR loop when the key is non-empty. -/
def xorBytes (key : List Nat) : Nat → List Nat → List Nat
  | _, [] => []
  | i, b :: rest => Nat.xor b (key.getD (i % key.length) 0) :: xorBytes key (i + 1) rest

def decrypt_file_data (serverKey : Option (List Nat)) (encrypted_data : List Nat) :
    Option (List Nat) :=
  match serverKey with
  | none => none
  | some key => xorLoop key 0 encrypted_data

def encrypt_file_data (serverKey : Option (List Nat)) (file_data : List Nat) :
    Option (List Nat) :=
  match serverKey with
  | none => none
  | some key => xorLoop key 0 file_data

/-! ## Multipart field-data scan (`do_POST`, lines 854–874)

The body is already split into "lines" by `rfile.readline()` (each line
keeps its terminator).  The scan keeps the previously read line in
`preline`; when a line containing the boundary token appears, the held
line is appended after `preline.rstrip(b"\r\n")`, i.e. with **all**
trailing CR (13) and LF (10) bytes removed.  If the declared length runs
out first, the loop exits and the held line is dropped. -/

/-- Python `pat in s` on byte strings: contiguous-subsequence test. -/
def containsSeq (pat : List Nat) : List Nat → Bool
  | [] => decide (pat = [])
  | b :: rest => pat.isPrefixOf (b :: rest) || containsSeq pat rest

/-- Python `bytes.rstrip(b"\r\n")`. -/
def rstripCRLF (l : List Nat) : List Nat :=
  (l.reverse.dropWhile (fun b => b = 13 || b = 10)).reverse

def fieldDataLoop (boundary : List Nat) : List Nat → List Nat → List (List Nat) → List Nat
  | data, _preline, [] => data
  | data, preline, line :: rest =>
    if containsSeq boundary line then data ++ rstripCRLF preline
    else fieldDataLoop boundary (data ++ preline) line rest

/-- The field-data scan: the first line read becomes `preline`, then the
loop above runs over the remaining lines. -/
def read_field_data (boundary : List Nat) : List (List Nat) → Option (List Nat)
  | [] => none
  | preline :: rest => some (fieldDataLoop boundary [] preline rest)

/-- Modelled from the spec (§4.3 rule 3, the sentence under test): the
payload is the concatenation of all payload lines with exactly one
trailing CR LF line terminator — the boundary-adjacent one — removed from
the final line only. -/
def stripOneCRLF (l : List Nat) : List Nat :=
  if 2 ≤ l.length ∧ l.drop (l.length - 2) = [13, 10] then l.take (l.length - 2) else l

/-- Modelled from the spec: the decoded payload the specification predicts
for a part whose payload lines are `ls`. -/
def specFieldData (ls : List (List Nat)) : List Nat :=
  ls.dropLast.flatten ++ stripOneCRLF (ls.getLast?.getD [])

/-! ## Server state -/

/-- One entry of the in-memory `chunk_tracker` dictionary. -/
structure Session where
  total_chunks : Nat
  received_chunks : Finset Nat
  safe_filename : List Char
deriving DecidableEq

/-- The mutable server state: the tracker dictionary, the chunk directory
(keyed by sanitized name and chunk index — the pair is in bijection with
the on-disk name `f"{safe_filename}.chunk{chunk_index}"`), and the upload
directory (keyed by sanitized name). -/
structure ServerState where
  tracker : List (List Char × Session)
  chunkFS : List ((List Char × Nat) × List Nat)
  uploadFS : List (List Char × List Nat)
deriving DecidableEq

def initState : ServerState := ⟨[], [], []⟩

/-- Decimal digit characters of `n` (Python `f"...{i}"` for a `Nat`),
written with structural fuel recursion (`n + 1` is always enough fuel,
since `n / 10 < n` for `n ≥ 10`). -/
def natCharsAux : Nat → Nat → List Char
  | 0, _ => []
  | fuel + 1, n =>
    if n < 10 then [Char.ofNat (48 + n)]
    else natCharsAux fuel (n / 10) ++ [Char.ofNat (48 + n % 10)]

def natChars (n : Nat) : List Char := natCharsAux (n + 1) n

/-- The on-disk chunk-artifact name `f"{safe_filename}.chunk{chunk_index}"`. -/
def chunkFileName (safe : List Char) (i : Nat) : List Char :=
  safe ++ ".chunk".toList ++ natChars i

/-- Models `os.path.abspath(os.path.join(root, name)).startswith(os.path.abspath(root))`
for a single path component `name` (the only shape this development feeds
it: sanitized names and chunk-artifact names, which never contain `'/'`).
For such a component the joined path resolves to `abspath root ++ "/" ++ name`
unless the component is a dot segment: `".."` resolves to the root's
parent (the check fails) and `"."` to the root itself (the check holds). -/
def resolvesWithin (name : List Char) : Bool :=
  decide ('/' ∉ name ∧ name ≠ ['.', '.'])

/-- Outcome of one POST request, one constructor per `send_error` /
`send_response` site of the upload path. -/
inductive PostResult where
  | errMissingFields
  | errTooLarge
  | errDecrypt
  | errBadChunkParams
  | errChunkMismatch
  | errSecurity
  | errAssembleFailed
  | okChunkReceived
  | okAssembled
  | okUploaded
deriving DecidableEq

/-! ## `reassemble_chunks` (lines 194–235) -/

/-- `reassemble_chunks`: check that every chunk artifact exists (first
missing index returns `False` before anything is touched), re-check the
output path, then write the concatenation of the artifacts in ascending
index order, delete the artifacts, and drop the tracker entry. -/
def reassemble_chunks (st : ServerState) (original_filename : List Char)
    (total_chunks : Nat) : ServerState × Bool :=
  let safe := sanitize_filename original_filename
  if (List.range total_chunks).all (fun i => (lookupKV st.chunkFS (safe, i)).isSome) then
    if resolvesWithin safe then
      let contents :=
        (List.range total_chunks).map fun i => (lookupKV st.chunkFS (safe, i)).getD []
      (⟨eraseKV st.tracker original_filename,
        (List.range total_chunks).foldl (fun m i => eraseKV m (safe, i)) st.chunkFS,
        setKV st.uploadFS safe contents.flatten⟩, true)
    else (st, false)
  else (st, false)

/-- `reassemble_chunks` under an I/O error: the read of chunk artifact
`failAt` raises an `OSError` inside the copy loop (lines 218–221).  By the
source's control flow the artifacts `0 .. failAt-1` have already been
written into the freshly opened destination file, the `with` block closes
that file, the `except` handler returns `False`, and no cleanup runs: the
partially written destination stays in the upload directory and neither
the chunk artifacts nor the tracker entry are removed.  `failAt ≥
total_chunks` means no read fails and the behaviour is the success path. -/
def reassemble_chunks_readErr (st : ServerState) (original_filename : List Char)
    (total_chunks : Nat) (failAt : Nat) : ServerState × Bool :=
  let safe := sanitize_filename original_filename
  if (List.range total_chunks).all (fun i => (lookupKV st.chunkFS (safe, i)).isSome) then
    if resolvesWithin safe then
      if failAt < total_chunks then
        let written :=
          (List.range failAt).map fun i => (lookupKV st.chunkFS (safe, i)).getD []
        ({ st with uploadFS := setKV st.uploadFS safe written.flatten }, false)
      else
        let contents :=
          (List.range total_chunks).map fun i => (lookupKV st.chunkFS (safe, i)).getD []
        (⟨eraseKV st.tracker original_filename,
          (List.range total_chunks).foldl (fun m i => eraseKV m (safe, i)) st.chunkFS,
          setKV st.uploadFS safe contents.flatten⟩, true)
    else (st, false)
  else (st, false)

/-! ## The chunked-upload arm of `do_POST` (lines 916–964) -/

def handleChunk (st : ServerState) (original_name : List Char) (ci tc : Int)
    (decrypted : List Nat) : ServerState × PostResult :=
  match validate_chunk_params ci tc with
  | none => (st, .errBadChunkParams)
  | some (chunk_index, total_chunks) =>
    let safe := sanitize_filename original_name
    let fresh : Session := ⟨total_chunks, ∅, safe⟩
    let sess0 := (lookupKV st.tracker original_name).getD fresh
    let tr0 :=
      if (lookupKV st.tracker original_name).isSome then st.tracker
      else setKV st.tracker original_name fresh
    if sess0.total_chunks ≠ total_chunks then ({ st with tracker := tr0 }, .errChunkMismatch)
    else if ¬ resolvesWithin (chunkFileName safe chunk_index) then
      ({ st with tracker := tr0 }, .errSecurity)
    else
      let sess1 : Session := { sess0 with received_chunks := insert chunk_index sess0.received_chunks }
      let st1 : ServerState :=
        ⟨setKV tr0 original_name sess1,
         setKV st.chunkFS (safe, chunk_index) decrypted,
         st.uploadFS⟩
      if sess1.received_chunks.card = total_chunks then
        match reassemble_chunks st1 original_name total_chunks with
        | (st2, true) => (st2, .okAssembled)
        | (st2, false) => (st2, .errAssembleFailed)
      else (st1, .okChunkReceived)

/-- The upload-processing tail of `do_POST` (lines 876–978), entered with
the parsed form fields: missing-field check, size check, decryption, then
either the chunked arm or the single-shot write.  (The always-true
extension check of lines 898–902 is omitted: `ALLOWED_EXTENSIONS` is
`None`, so `validate_file_extension` returns `True` for every non-empty
name, and `sanitize_filename` never returns an empty name.) -/
def do_POST_core (st : ServerState) (serverKey : Option (List Nat))
    (original_name : Option (List Char)) (chunk_index total_chunks : Option Int)
    (file_data : Option (List Nat)) : ServerState × PostResult :=
  match original_name, file_data with
  | some name, some fd =>
    if name = [] ∨ fd = [] then (st, .errMissingFields)
    else if MAX_FILE_SIZE < fd.length then (st, .errTooLarge)
    else
      match decrypt_file_data serverKey fd with
      | none => (st, .errDecrypt)
      | some decrypted =>
        match chunk_index, total_chunks with
        | some ci, some tc => handleChunk st name ci tc decrypted
        | _, _ =>
          let safe := sanitize_filename name
          if resolvesWithin safe then
            ({ st with uploadFS := setKV st.uploadFS safe decrypted }, .okUploaded)
          else (st, .errSecurity)
  | _, _ => (st, .errMissingFields)

/-- Process a list of chunk requests `(index, decrypted payload)` for one
original name and declared chunk count, returning the final state and the
per-request results. -/
def runChunks (name : List Char) (N : Nat) :
    ServerState → List (Nat × List Nat) → ServerState × List PostResult
  | st, [] => (st, [])
  | st, (i, d) :: rest =>
    let p := handleChunk st name (i : Int) (N : Int) d
    let q := runChunks name N p.1 rest
    (q.1, p.2 :: q.2)

/-- The payload of the chunk artifact index `i` holds after the requests
`p` were processed: the payload of the last request for index `i`. -/
def lastPayload? : List (Nat × List Nat) → Nat → Option (List Nat)
  | [], _ => none
  | (j, d) :: rest, i =>
    match lastPayload? rest i with
    | some d' => some d'
    | none => if j = i then some d else none

/-- The state reached after the chunk requests `p` — all for `name`, with
declared total `N` — have been processed starting from `st0`: the tracker
holds the session with exactly the indices seen so far, each chunk
artifact holds the payload of the last request for its index, and the
upload directory is untouched. -/
def TraceInv (st0 : ServerState) (name : List Char) (N : Nat)
    (p : List (Nat × List Nat)) (st : ServerState) : Prop :=
  (lookupKV st.tracker name =
    if p = [] then none
    else some ⟨N, (p.map Prod.fst).toFinset, sanitize_filename name⟩) ∧
  (∀ i : Nat, lookupKV st.chunkFS (sanitize_filename name, i) =
    match lastPayload? p i with
    | some d => some d
    | none => lookupKV st0.chunkFS (sanitize_filename name, i)) ∧
  st.uploadFS = st0.uploadFS

/-- A concrete state with a two-chunk session for `"a"` whose artifacts
are both on disk, used to exercise the read-error path of reassembly. -/
def stC5 : ServerState :=
  ⟨[(['a'], ⟨2, {0, 1}, ['a']⟩)],
   [((['a'], 0), [1]), ((['a'], 1), [2])],
   []⟩

/-! ## Registry invariant (claim C10) -/

/-- The per-session invariant: the declared chunk count is in `1..10000`
and every recorded index is below it. -/
def SessionOK (s : Session) : Prop :=
  1 ≤ s.total_chunks ∧ s.total_chunks ≤ 10000 ∧
    ∀ i ∈ s.received_chunks, i < s.total_chunks

/-- The registry invariant over every entry of the tracker. -/
def RegistryInv (tr : List (List Char × Session)) : Prop :=
  ∀ e ∈ tr, SessionOK e.2

/-! ## Lemmas about the association-list maps -/

theorem lookupKV_setKV_self {κ α : Type} [DecidableEq κ] (m : List (κ × α)) (k : κ) (v : α) :
    lookupKV (setKV m k v) k = some v := by
  induction m with
  | nil => simp [setKV, lookupKV]
  | cons e rest ih =>
    obtain ⟨k', w⟩ := e
    by_cases h : k = k' <;> simp [setKV, lookupKV, h, ih]

theorem lookupKV_setKV_ne {κ α : Type} [DecidableEq κ] (m : List (κ × α)) (k k' : κ) (v : α)
    (h : k' ≠ k) : lookupKV (setKV m k v) k' = lookupKV m k' := by
  induction m with
  | nil => simp [setKV, lookupKV, h]
  | cons e rest ih =>
    obtain ⟨k'', w⟩ := e
    by_cases h2 : k = k''
    · subst h2; simp [setKV, lookupKV, h]
    · by_cases h3 : k' = k'' <;> simp [setKV, lookupKV, h2, h3, ih]

theorem setKV_setKV_self {κ α : Type} [DecidableEq κ] (m : List (κ × α)) (k : κ) (v w : α) :
    setKV (setKV m k v) k w = setKV m k w := by
  induction m with
  | nil => simp [setKV]
  | cons e rest ih =>
    obtain ⟨k', x⟩ := e
    by_cases h : k = k'
    · subst h; simp [setKV]
    · simp [setKV, h, ih]

theorem lookupKV_eraseKV_ne {κ α : Type} [DecidableEq κ] (m : List (κ × α)) (k k' : κ)
    (h : k' ≠ k) : lookupKV (eraseKV m k) k' = lookupKV m k' := by
  induction m with
  | nil => simp [eraseKV]
  | cons e rest ih =>
    obtain ⟨k'', w⟩ := e
    by_cases h2 : k = k''
    · subst h2; simp [eraseKV, lookupKV, h]
    · by_cases h3 : k' = k'' <;> simp [eraseKV, lookupKV, h2, h3, ih]

theorem lookupKV_eq_none_iff {κ α : Type} [DecidableEq κ] (m : List (κ × α)) (k : κ) :
    lookupKV m k = none ↔ ∀ e ∈ m, e.1 ≠ k := by
  induction m with
  | nil => simp [lookupKV]
  | cons e rest ih =>
    obtain ⟨k', w⟩ := e
    by_cases h : k = k'
    · subst h
      simp only [lookupKV, if_pos rfl]
      constructor
      · intro h2; cases h2
      · intro h2; exact absurd rfl (h2 (k, w) (by simp))
    · simp only [lookupKV, if_neg h, ih, List.mem_cons]
      constructor
      · rintro h2 e (rfl | he)
        · exact fun hk => h hk.symm
        · exact h2 e he
      · intro h2 e he
        exact h2 e (Or.inr he)

theorem lookupKV_mem {κ α : Type} [DecidableEq κ] (m : List (κ × α)) (k : κ) (v : α) :
    lookupKV m k = some v → (k, v) ∈ m := by
  induction m with
  | nil => intro h; simp [lookupKV] at h
  | cons e rest ih =>
    obtain ⟨k', w⟩ := e
    intro h
    by_cases h2 : k = k'
    · subst h2; simp [lookupKV] at h; simp [h]
    · simp [lookupKV, h2] at h
      exact List.mem_cons_of_mem _ (ih h)

theorem mem_setKV {κ α : Type} [DecidableEq κ] {m : List (κ × α)} {k : κ} {v : α} {e : κ × α} :
    e ∈ setKV m k v → e = (k, v) ∨ e ∈ m := by
  induction m with
  | nil => intro hm; simpa [setKV] using hm
  | cons e' rest ih =>
    obtain ⟨k', w⟩ := e'
    intro hm
    by_cases h2 : k = k'
    · subst h2
      rw [show setKV ((k, w) :: rest) k v = (k, v) :: rest by simp [setKV]] at hm
      rcases List.mem_cons.mp hm with h | h
      · exact Or.inl h
      · exact Or.inr (List.mem_cons_of_mem _ h)
    · rw [show setKV ((k', w) :: rest) k v = (k', w) :: setKV rest k v by
        simp [setKV, h2]] at hm
      rcases List.mem_cons.mp hm with h | h
      · exact Or.inr (by simp [h])
      · rcases ih h with h3 | h3
        · exact Or.inl h3
        · exact Or.inr (List.mem_cons_of_mem _ h3)

theorem mem_eraseKV {κ α : Type} [DecidableEq κ] {m : List (κ × α)} {k : κ} {e : κ × α} :
    e ∈ eraseKV m k → e ∈ m := by
  induction m with
  | nil => intro hm; simp [eraseKV] at hm
  | cons e' rest ih =>
    obtain ⟨k', w⟩ := e'
    intro hm
    by_cases h2 : k = k'
    · subst h2
      rw [show eraseKV ((k, w) :: rest) k = rest by simp [eraseKV]] at hm
      exact List.mem_cons_of_mem _ hm
    · rw [show eraseKV ((k', w) :: rest) k = (k', w) :: eraseKV rest k by
        simp [eraseKV, h2]] at hm
      rcases List.mem_cons.mp hm with h | h
      · simp [h]
      · exact List.mem_cons_of_mem _ (ih h)

theorem keysNodup_setKV {κ α : Type} [DecidableEq κ] (m : List (κ × α)) (k : κ) (v : α) :
    KeysNodup m → KeysNodup (setKV m k v) := by
  induction m with
  | nil => intro _; simp [setKV, KeysNodup]
  | cons e rest ih =>
    obtain ⟨k', w⟩ := e
    intro h
    simp only [KeysNodup, List.map_cons, List.nodup_cons] at h
    by_cases h2 : k = k'
    · subst h2
      rw [show setKV ((k, w) :: rest) k v = (k, v) :: rest by simp [setKV]]
      simp only [KeysNodup, List.map_cons, List.nodup_cons]
      exact h
    · rw [show setKV ((k', w) :: rest) k v = (k', w) :: setKV rest k v by
        simp [setKV, h2]]
      simp only [KeysNodup, List.map_cons, List.nodup_cons]
      refine ⟨fun hmem => ?_, ih h.2⟩
      rw [List.mem_map] at hmem
      obtain ⟨e, he, hke⟩ := hmem
      rcases mem_setKV he with h3 | h3
      · apply h2
        rw [h3] at hke
        exact hke
      · exact h.1 (hke ▸ List.mem_map_of_mem Prod.fst h3)

theorem keysNodup_eraseKV {κ α : Type} [DecidableEq κ] (m : List (κ × α)) (k : κ) :
    KeysNodup m → KeysNodup (eraseKV m k) := by
  induction m with
  | nil => intro _; simp [eraseKV, KeysNodup]
  | cons e rest ih =>
    obtain ⟨k', w⟩ := e
    intro h
    simp only [KeysNodup, List.map_cons, List.nodup_cons] at h
    by_cases h2 : k = k'
    · subst h2
      simp only [eraseKV, if_pos rfl, KeysNodup]
      exact h.2
    · simp only [eraseKV, if_neg h2, KeysNodup, List.map_cons, List.nodup_cons]
      refine ⟨fun hmem => ?_, ih h.2⟩
      rw [List.mem_map] at hmem
      obtain ⟨e, he, hke⟩ := hmem
      exact h.1 (hke ▸ List.mem_map_of_mem Prod.fst (mem_eraseKV he))

theorem lookupKV_eraseKV_self {κ α : Type} [DecidableEq κ] (m : List (κ × α)) (k : κ) :
    KeysNodup m → lookupKV (eraseKV m k) k = none := by
  induction m with
  | nil => intro _; simp [eraseKV, lookupKV]
  | cons e rest ih =>
    obtain ⟨k', w⟩ := e
    intro h
    simp only [KeysNodup, List.map_cons, List.nodup_cons] at h
    by_cases h2 : k = k'
    · subst h2
      simp only [eraseKV, if_pos rfl]
      rw [lookupKV_eq_none_iff]
      intro e he hk
      exact h.1 (hk ▸ List.mem_map_of_mem Prod.fst he)
    · simp only [eraseKV, if_neg h2, lookupKV, if_neg h2]
      exact ih h.2

/-! ## Lemmas about `lastIndexOf` -/

theorem lastIndexOf_eq_none_iff (c : Char) (l : List Char) :
    lastIndexOf c l = none ↔ c ∉ l := by
  induction l with
  | nil => simp [lastIndexOf]
  | cons x xs ih =>
    simp only [lastIndexOf]
    cases h : lastIndexOf c xs with
    | some i =>
      have hc : c ∈ xs := by
        by_contra hc
        rw [ih.mpr hc] at h
        cases h
      simp [List.mem_cons, hc]
    | none =>
      have hc : c ∉ xs := ih.mp h
      by_cases h2 : x = c
      · subst h2
        simp [List.mem_cons]
      · simp only [if_neg h2, List.mem_cons]
        constructor
        · rintro - (h3 | h3)
          · exact h2 h3.symm
          · exact hc h3
        · intro _; trivial

theorem lastIndexOf_lt_length {c : Char} {l : List Char} {i : Nat}
    (h : lastIndexOf c l = some i) : i < l.length := by
  induction l generalizing i with
  | nil => simp [lastIndexOf] at h
  | cons x xs ih =>
    simp only [lastIndexOf] at h
    cases h2 : lastIndexOf c xs with
    | some j =>
      rw [h2] at h
      injection h with h
      subst h
      exact Nat.succ_lt_succ (ih h2)
    | none =>
      rw [h2] at h
      by_cases h3 : x = c
      · simp [h3] at h
        simp only [List.length_cons]
        omega
      · simp [h3] at h

theorem lastIndexOf_notMem_drop {c : Char} {l : List Char} {i : Nat}
    (h : lastIndexOf c l = some i) : c ∉ l.drop (i + 1) := by
  induction l generalizing i with
  | nil => simp [lastIndexOf] at h
  | cons x xs ih =>
    simp only [lastIndexOf] at h
    cases h2 : lastIndexOf c xs with
    | some j =>
      rw [h2] at h
      injection h with h
      subst h
      simpa using ih h2
    | none =>
      rw [h2] at h
      by_cases h3 : x = c
      · simp [h3] at h
        subst h
        simpa using (lastIndexOf_eq_none_iff c xs).mp h2
      · simp [h3] at h

theorem lastIndexOf_append_cons {c : Char} (a : List Char) {b : List Char}
    (h : c ∉ b) : lastIndexOf c (a ++ c :: b) = some a.length := by
  induction a with
  | nil =>
    simp only [List.nil_append, lastIndexOf, (lastIndexOf_eq_none_iff c b).mpr h]
    simp
  | cons x xs ih =>
    have step : lastIndexOf c (x :: (xs ++ c :: b)) =
        match lastIndexOf c (xs ++ c :: b) with
        | some i => some (i + 1)
        | none => if x = c then some 0 else none := rfl
    rw [List.cons_append, step, ih]
    rfl

/-! ## Lemmas about `dropWhile` boundaries -/

theorem head?_dropWhile_false {p : Char → Bool} {l : List Char} {a : Char}
    (h : (l.dropWhile p).head? = some a) : p a = false := by
  induction l with
  | nil => simp [List.dropWhile] at h
  | cons x xs ih =>
    rw [List.dropWhile_cons] at h
    by_cases h2 : p x
    · rw [if_pos h2] at h
      exact ih h
    · rw [if_neg h2] at h
      simp at h
      subst h
      simpa using h2

theorem getLast?_dropWhile_of_ne_nil {p : Char → Bool} {l : List Char}
    (h : l.dropWhile p ≠ []) : (l.dropWhile p).getLast? = l.getLast? := by
  induction l with
  | nil => simp [List.dropWhile] at h
  | cons x xs ih =>
    rw [List.dropWhile_cons]
    by_cases h2 : p x
    · rw [List.dropWhile_cons, if_pos h2] at h
      rw [if_pos h2, ih h]
      have hxs : xs ≠ [] := by
        rintro rfl
        exact h (by simp [List.dropWhile])
      obtain ⟨y, ys, rfl⟩ := List.exists_cons_of_ne_nil hxs
      exact (List.getLast?_cons_cons).symm
    · rw [if_neg h2]

/-! ## Lemmas about the XOR codec -/

theorem xorLoop_eq_some {key : List Nat} (hk : key ≠ []) (i : Nat) (d : List Nat) :
    xorLoop key i d = some (xorBytes key i d) := by
  induction d generalizing i with
  | nil => simp [xorLoop, xorBytes]
  | cons b rest ih =>
    have hlen : key.length ≠ 0 := by simpa using fun h => hk (List.length_eq_zero.mp h)
    simp [xorLoop, xorBytes, hlen, ih]

theorem xorBytes_xorBytes {key : List Nat} (i : Nat) (d : List Nat) :
    xorBytes key i (xorBytes key i d) = d := by
  induction d generalizing i with
  | nil => simp [xorBytes]
  | cons b rest ih =>
    simp only [xorBytes]
    rw [ih]
    congr 1
    exact Nat.xor_cancel_right _ _

theorem xorBytes_getD {key : List Nat} (i : Nat) (d : List Nat) (j : Nat)
    (h : j < d.length) :
    (xorBytes key i d).getD j 0 = Nat.xor (d.getD j 0) (key.getD ((i + j) % key.length) 0) := by
  induction d generalizing i j with
  | nil => simp at h
  | cons b rest ih =>
    cases j with
    | zero => simp [xorBytes]
    | succ j' =>
      simp only [xorBytes, List.getD_cons_succ]
      rw [ih (i + 1) j' (by simpa using h)]
      congr 3
      omega

/-! ## Properties of the sanitization stages -/

theorem replaceDangerous_no_sep {l : List Char} {c : Char} (h : c ∈ replaceDangerous l) :
    c ≠ '/' ∧ c ≠ '\\' := by
  simp only [replaceDangerous, List.mem_map] at h
  obtain ⟨a, -, rfl⟩ := h
  by_cases hd : dangerousChar a
  · rw [if_pos hd]; decide
  · rw [if_neg hd]
    constructor
    · rintro rfl; exact hd (by decide)
    · rintro rfl; exact hd (by decide)

theorem stripDotSpace_subset {l : List Char} : stripDotSpace l ⊆ l := by
  intro c hc
  simp only [stripDotSpace, List.mem_reverse] at hc
  have hc2 := (List.dropWhile_sublist _).subset hc
  rw [List.mem_reverse] at hc2
  exact (List.dropWhile_sublist _).subset hc2

theorem stripDotSpace_head? {l : List Char} {a : Char}
    (h : (stripDotSpace l).head? = some a) : a ≠ '.' ∧ a ≠ ' ' := by
  rw [stripDotSpace, List.head?_reverse] at h
  have hne : (List.dropWhile (fun c => c = '.' || c = ' ')
      (List.dropWhile (fun c => c = '.' || c = ' ') l).reverse) ≠ [] := by
    intro h2
    rw [h2] at h
    cases h
  rw [getLast?_dropWhile_of_ne_nil hne, List.getLast?_reverse] at h
  have := head?_dropWhile_false h
  constructor
  · rintro rfl; simp at this
  · rintro rfl; simp at this

/-- Properties of the string entering the truncation step: it is non-empty,
free of path separators, and does not start with a dot. -/
theorem placeholder_stage_props (f3 : List Char)
    (h2 : ∀ c ∈ f3, c ≠ '/' ∧ c ≠ '\\')
    (h3 : ∀ a, f3.head? = some a → a ≠ '.') :
    applyPlaceholder (applyReserved f3) ≠ [] ∧
    (∀ c ∈ applyPlaceholder (applyReserved f3), c ≠ '/' ∧ c ≠ '\\') ∧
    (∀ a, (applyPlaceholder (applyReserved f3)).head? = some a → a ≠ '.') := by
  rw [applyPlaceholder]
  by_cases hc : applyReserved f3 = [] ∨ applyReserved f3 = ['.'] ∨ applyReserved f3 = ['.', '.']
  · rw [if_pos hc]
    refine ⟨by decide, by decide, ?_⟩
    intro a ha
    rw [show ("unnamed_file".toList).head? = some 'u' from rfl] at ha
    injection ha with ha
    subst ha; decide
  · rw [if_neg hc]
    push_neg at hc
    rw [applyReserved] at hc ⊢
    by_cases hr : f3.map Char.toUpper ∈ reservedNames
    · rw [if_pos hr] at hc ⊢
      refine ⟨by simp, ?_, ?_⟩
      · intro c hcm
        rcases List.mem_append.mp hcm with hcm | hcm
        · have hfile : ∀ c ∈ "file_".toList, c ≠ '/' ∧ c ≠ '\\' := by decide
          exact hfile c hcm
        · exact h2 c hcm
      · intro a ha
        rw [List.head?_append] at ha
        rw [show ("file_".toList).head? = some 'f' from rfl, Option.or_some] at ha
        injection ha with ha
        subst ha; decide
    · rw [if_neg hr] at hc ⊢
      exact ⟨hc.1, h2, h3⟩

/-- `pySliceTo` is a `take`. -/
theorem pySliceTo_eq_take (l : List Char) (k : Int) : ∃ m, pySliceTo l k = l.take m := by
  rw [pySliceTo]
  by_cases h : 0 ≤ k
  · exact ⟨k.toNat, if_pos h⟩
  · exact ⟨l.length - (-k).toNat, if_neg h⟩

theorem head?_take {l : List Char} {m : Nat} {a : Char}
    (h : (l.take m).head? = some a) : l.head? = some a := by
  cases l with
  | nil => simp at h
  | cons x xs =>
    cases m with
    | zero => simp at h
    | succ m' => simpa using h

/-- Properties preserved and established by the truncation step. -/
theorem truncateName_props (l : List Char)
    (h1 : l ≠ []) (h2 : ∀ c ∈ l, c ≠ '/' ∧ c ≠ '\\')
    (h3 : ∀ a, l.head? = some a → a ≠ '.') :
    truncateName l ≠ [] ∧ (∀ c ∈ truncateName l, c ≠ '/' ∧ c ≠ '\\') ∧
    truncateName l ≠ ['.', '.'] := by
  have hslash : lastIndexOf '/' l = none :=
    (lastIndexOf_eq_none_iff '/' l).mpr fun hm => (h2 '/' hm).1 rfl
  -- the two no-extension shapes share this computation
  have hplain : ∀ hsp : splitext l = (l, []),
      MAX_FILENAME_LENGTH < l.length →
      truncateName l ≠ [] ∧ (∀ c ∈ truncateName l, c ≠ '/' ∧ c ≠ '\\') ∧
      truncateName l ≠ ['.', '.'] := by
    intro hsp hlen
    have h245 : truncateName l = l.take 245 := by
      rw [truncateName, if_pos hlen,
        show (splitext l).1 = l from by rw [hsp],
        show (splitext l).2 = ([] : List Char) from by rw [hsp],
        List.append_nil, pySliceTo, if_pos (by decide)]
      rfl
    rw [h245]
    refine ⟨?_, fun c hc => h2 c ((List.take_sublist _ l).subset hc), ?_⟩
    · rw [Ne, List.take_eq_nil_iff]
      rintro (h | rfl)
      · cases h
      · exact h1 rfl
    · intro heq
      have hl2 : (l.take 245).length = 2 := by rw [heq]; rfl
      rw [List.length_take] at hl2
      have hl3 : min 245 l.length = 2 := hl2
      rw [MAX_FILENAME_LENGTH] at hlen
      omega
  by_cases hlen : MAX_FILENAME_LENGTH < l.length
  · cases hdot : lastIndexOf '.' l with
    | none =>
      refine hplain ?_ hlen
      rw [splitext, hslash, hdot]
    | some d =>
      by_cases hcond : 0 ≤ d ∧ ((l.drop 0).take (d - 0)).any (fun c => c != '.')
      · have hsp : splitext l = (l.take d, l.drop d) := by
          rw [splitext, hslash, hdot]
          simp only [if_pos hcond]
        have hd_lt : d < l.length := lastIndexOf_lt_length hdot
        have he_ne : l.drop d ≠ [] := by
          rw [Ne, List.drop_eq_nil_iff]
          omega
        obtain ⟨m, hm⟩ := pySliceTo_eq_take (l.take d)
          ((MAX_FILENAME_LENGTH : Int) - 10 - ((l.drop d).length : Int))
        have hres : truncateName l = (l.take d).take m ++ l.drop d := by
          rw [truncateName, if_pos hlen,
            show (splitext l).1 = l.take d from by rw [hsp],
            show (splitext l).2 = l.drop d from by rw [hsp], hm]
        rw [hres]
        refine ⟨?_, ?_, ?_⟩
        · rw [Ne, List.append_eq_nil]
          rintro ⟨-, h⟩
          exact he_ne h
        · intro c hc
          rcases List.mem_append.mp hc with hc | hc
          · exact h2 c ((List.take_sublist _ _).subset ((List.take_sublist _ _).subset hc))
          · exact h2 c ((List.drop_sublist _ _).subset hc)
        · intro heq
          by_cases ht : (l.take d).take m = []
          · rw [ht, List.nil_append] at heq
            have hdrop : l.drop (d + 1) = ['.'] := by
              have hq : List.drop 1 (List.drop d l) = List.drop 1 ['.', '.'] := by rw [heq]
              rw [List.drop_drop] at hq
              simpa using hq
            have : '.' ∈ l.drop (d + 1) := by rw [hdrop]; simp
            exact lastIndexOf_notMem_drop hdot this
          · obtain ⟨b, bs, hb⟩ := List.exists_cons_of_ne_nil ht
            have hhead : ((l.take d).take m ++ l.drop d).head? = some b := by
              rw [hb]; simp
            rw [heq] at hhead
            have hb2 : b = '.' := by
              simp at hhead
              exact hhead.symm
            have : l.head? = some b := head?_take (head?_take (by rw [hb]; rfl))
            exact h3 b this (by rw [hb2])
      · refine hplain ?_ hlen
        rw [splitext, hslash, hdot]
        simp only [if_neg hcond]
  · rw [truncateName, if_neg hlen]
    refine ⟨h1, h2, ?_⟩
    rintro rfl
    exact h3 '.' rfl rfl

/-- The combined guarantees of `sanitize_filename` used throughout: the
result is non-empty, contains no path separator, and is not `".."`. -/
theorem sanitize_filename_props (x : List Char) :
    sanitize_filename x ≠ [] ∧ (∀ c ∈ sanitize_filename x, c ≠ '/' ∧ c ≠ '\\') ∧
    sanitize_filename x ≠ ['.', '.'] := by
  rw [sanitize_filename]
  by_cases hx : x = []
  · rw [if_pos hx]
    refine ⟨by decide, by decide, by decide⟩
  · rw [if_neg hx]
    have h2 : ∀ c ∈ stripDotSpace (replaceDangerous (basename x)), c ≠ '/' ∧ c ≠ '\\' :=
      fun c hc => replaceDangerous_no_sep (stripDotSpace_subset hc)
    have h3 : ∀ a, (stripDotSpace (replaceDangerous (basename x))).head? = some a → a ≠ '.' :=
      fun a ha => (stripDotSpace_head? ha).1
    obtain ⟨p1, p2, p3⟩ := placeholder_stage_props _ h2 h3
    exact truncateName_props _ p1 p2 p3

/-! ## Joining a separator-free name to a root directory -/

theorem osDirname_osJoin (root name : List Char)
    (h1 : root ≠ []) (h2 : root.getLast? ≠ some '/')
    (h3 : name ≠ []) (h4 : '/' ∉ name) :
    osDirname (osJoin root name) = root := by
  obtain ⟨a, t, hrev⟩ := List.exists_cons_of_ne_nil
    (fun h => h1 (by simpa using congrArg List.reverse h) : root.reverse ≠ [])
  have hga : root.getLast? = some a := by
    rw [← List.head?_reverse, hrev]; rfl
  have ha : a ≠ '/' := fun h => h2 (h ▸ hga)
  have hnh : ¬ name.head? = some '/' := by
    intro h
    obtain ⟨b, bs, rfl⟩ := List.exists_cons_of_ne_nil h3
    injection h with h
    exact h4 (by simp [h])
  have hjoin : osJoin root name = root ++ '/' :: name := by
    rw [osJoin, if_neg hnh, if_neg (not_or.mpr ⟨h1, h2⟩)]
  rw [hjoin]
  have hli : lastIndexOf '/' (root ++ '/' :: name) = some root.length :=
    lastIndexOf_append_cons root h4
  simp only [osDirname, hli]
  have htake : (root ++ '/' :: name).take (root.length + 1) = root ++ ['/'] := by
    rw [show root ++ '/' :: name = (root ++ ['/']) ++ name by simp,
      show root.length + 1 = (root ++ ['/']).length by simp, List.take_left]
  rw [htake]
  have hallne : ¬ (root ++ ['/']).all (fun c => c = '/') = true := by
    intro hall
    rw [List.all_eq_true] at hall
    have := hall a (List.mem_append_left _ (by rw [← List.mem_reverse, hrev]; simp))
    simp at this
    exact ha this
  rw [if_pos ⟨by simp, hallne⟩, rstripChar,
    show (root ++ ['/']).reverse = '/' :: root.reverse by simp,
    List.dropWhile_cons, if_pos (by simp), hrev, List.dropWhile_cons,
    if_neg (by simp [ha]), ← hrev, List.reverse_reverse]

/-! ## The decimal characters of a chunk index -/

theorem natCharsAux_digits : ∀ (fuel n : Nat) {c : Char}, c ∈ natCharsAux fuel n →
    ∃ d, d < 10 ∧ c = Char.ofNat (48 + d) := by
  intro fuel
  induction fuel with
  | zero => intro n c h; simp [natCharsAux] at h
  | succ fuel' ih =>
    intro n c h
    rw [natCharsAux] at h
    by_cases h10 : n < 10
    · rw [if_pos h10] at h
      simp at h
      exact ⟨n, h10, h⟩
    · rw [if_neg h10] at h
      rcases List.mem_append.mp h with h | h
      · exact ih (n / 10) h
      · simp at h
        exact ⟨n % 10, Nat.mod_lt _ (by decide), h⟩

theorem natChars_digits {n : Nat} {c : Char} (h : c ∈ natChars n) :
    ∃ d, d < 10 ∧ c = Char.ofNat (48 + d) :=
  natCharsAux_digits (n + 1) n h

theorem chunkFileName_ok {safe : List Char} (hs : '/' ∉ safe) (i : Nat) :
    resolvesWithin (chunkFileName safe i) = true := by
  rw [resolvesWithin, decide_eq_true_eq]
  constructor
  · intro hm
    rcases List.mem_append.mp hm with hm | hm
    · rcases List.mem_append.mp hm with hm | hm
      · exact hs hm
      · revert hm; decide
    · obtain ⟨d, hd, hc⟩ := natChars_digits hm
      have : ∀ d, d < 10 → Char.ofNat (48 + d) ≠ '/' := by decide
      exact this d hd hc.symm
  · intro heq
    have hlen := congrArg List.length heq
    simp [chunkFileName, List.length_append] at hlen
    omega

theorem sanitize_resolvesWithin (x : List Char) :
    resolvesWithin (sanitize_filename x) = true := by
  obtain ⟨-, p2, p3⟩ := sanitize_filename_props x
  rw [resolvesWithin, decide_eq_true_eq]
  exact ⟨fun hm => (p2 _ hm).1 rfl, p3⟩

/-! ## The multipart field-data scan -/

theorem fieldDataLoop_payload (boundary bl : List Nat)
    (hbl : containsSeq boundary bl = true) :
    ∀ (ls : List (List Nat)) (pre data : List Nat),
      (∀ l ∈ ls, containsSeq boundary l = false) →
      fieldDataLoop boundary data pre (ls ++ [bl]) =
        data ++ (pre :: ls).dropLast.flatten ++ rstripCRLF ((pre :: ls).getLast?.getD []) := by
  intro ls
  induction ls with
  | nil =>
    intro pre data _
    simp only [List.nil_append, fieldDataLoop, hbl, if_pos]
    simp
  | cons l ls' ih =>
    intro pre data hnb
    rw [List.cons_append,
      show fieldDataLoop boundary data pre (l :: (ls' ++ [bl])) =
        if containsSeq boundary l then data ++ rstripCRLF pre
        else fieldDataLoop boundary (data ++ pre) l (ls' ++ [bl]) from rfl,
      if_neg (by rw [hnb l (by simp)]; simp),
      ih l (data ++ pre) (fun x hx => hnb x (List.mem_cons_of_mem _ hx))]
    simp [List.append_assoc]

/-! ## Claim theorems -/

/-- C1: for every raw client-supplied name, `sanitize_filename` returns a
non-empty string free of the path separators `'/'` and `'\\'`, and joining
the result to the (non-empty, not slash-terminated) upload root yields a
path whose parent directory is exactly that root. -/
theorem sanitize_filename_path_safe (raw root : List Char)
    (h1 : root ≠ []) (h2 : root.getLast? ≠ some '/') :
    sanitize_filename raw ≠ [] ∧
    '/' ∉ sanitize_filename raw ∧ '\\' ∉ sanitize_filename raw ∧
    osDirname (osJoin root (sanitize_filename raw)) = root := by
  obtain ⟨p1, p2, -⟩ := sanitize_filename_props raw
  have hs : '/' ∉ sanitize_filename raw := fun hm => (p2 _ hm).1 rfl
  have hb : '\\' ∉ sanitize_filename raw := fun hm => (p2 _ hm).2 rfl
  exact ⟨p1, hs, hb, osDirname_osJoin root _ h1 h2 p1 hs⟩

/-- Witness for C1 at the spec's scenario input `"../../etc/passwd"` with
the configured upload root `"./uploads"`. -/
theorem sanitize_filename_path_safe_witness :
    sanitize_filename "../../etc/passwd".toList ≠ [] ∧
    '/' ∉ sanitize_filename "../../etc/passwd".toList ∧
    '\\' ∉ sanitize_filename "../../etc/passwd".toList ∧
    osDirname (osJoin "./uploads".toList (sanitize_filename "../../etc/passwd".toList)) =
      "./uploads".toList :=
  sanitize_filename_path_safe "../../etc/passwd".toList "./uploads".toList
    (by decide) (by decide)

/-- C3 counterexample: for the single payload line `b"abc\r\r\n"` followed
by the boundary line, the decoder returns `b"abc"`, while removing exactly
one boundary-adjacent CR LF from the final line would give `b"abc\r"` —
the payload's own trailing CR byte is lost. -/
theorem multipart_final_line_cex :
    read_field_data [45, 45, 66] [[97, 98, 99, 13, 13, 10], [45, 45, 66, 45, 45, 13, 10]] =
      some [97, 98, 99] ∧
    specFieldData [[97, 98, 99, 13, 13, 10]] = [97, 98, 99, 13] ∧
    ([97, 98, 99] : List Nat) ≠ [97, 98, 99, 13] := by decide

/-- C3 amended: the decoded payload is the concatenation of the part's
payload lines with **all** trailing CR and LF bytes (`bytes.rstrip(b"\r\n")`)
removed from the final line — one boundary-adjacent CR LF when the payload
itself does not end in CR or LF bytes, more otherwise. -/
theorem read_field_data_rstrip (boundary bl : List Nat) (ls : List (List Nat))
    (hls : ls ≠ [])
    (hnb : ∀ l ∈ ls, containsSeq boundary l = false)
    (hbl : containsSeq boundary bl = true) :
    read_field_data boundary (ls ++ [bl]) =
      some (ls.dropLast.flatten ++ rstripCRLF (ls.getLast?.getD [])) := by
  obtain ⟨pre, rest, rfl⟩ := List.exists_cons_of_ne_nil hls
  rw [List.cons_append,
    show read_field_data boundary (pre :: (rest ++ [bl])) =
      some (fieldDataLoop boundary [] pre (rest ++ [bl])) from rfl,
    fieldDataLoop_payload boundary bl hbl rest pre []
      (fun x hx => hnb x (List.mem_cons_of_mem _ hx))]
  simp

/-- Witness for the amended C3 on a two-line payload. -/
theorem read_field_data_rstrip_witness :
    read_field_data [45, 45, 66] ([[97, 10], [98, 13, 10]] ++ [[45, 45, 66, 13, 10]]) =
      some (([[97, 10], [98, 13, 10]] : List (List Nat)).dropLast.flatten ++
        rstripCRLF (([[97, 10], [98, 13, 10]] : List (List Nat)).getLast?.getD [])) :=
  read_field_data_rstrip [45, 45, 66] [45, 45, 66, 13, 10] [[97, 10], [98, 13, 10]]
    (by decide) (by decide) (by decide)

/-- C6: with a non-empty key, the XOR transform is an involution
(`encrypt` then `decrypt` restores the input), each output byte `i` is the
input byte `i` XOR the key byte `i mod len(key)`, and the empty input maps
to the empty output. -/
theorem xor_transform_involution (key d : List Nat) (hk : key ≠ []) :
    encrypt_file_data (some key) d = some (xorBytes key 0 d) ∧
    decrypt_file_data (some key) (xorBytes key 0 d) = some d ∧
    (∀ j, j < d.length →
      (xorBytes key 0 d).getD j 0 = Nat.xor (d.getD j 0) (key.getD (j % key.length) 0)) ∧
    encrypt_file_data (some key) [] = some [] := by
  refine ⟨?_, ?_, ?_, rfl⟩
  · rw [encrypt_file_data]
    exact xorLoop_eq_some hk 0 d
  · rw [decrypt_file_data, xorLoop_eq_some hk 0 _, xorBytes_xorBytes 0 d]
  · intro j hj
    have h0 : (xorBytes key 0 d).getD j 0 =
        Nat.xor (d.getD j 0) (key.getD ((0 + j) % key.length) 0) := xorBytes_getD 0 d j hj
    simpa using h0

/-- Witness for C6 with key `b"k"` and input `[1, 2, 3]`. -/
theorem xor_transform_involution_witness :
    encrypt_file_data (some [107]) [1, 2, 3] = some (xorBytes [107] 0 [1, 2, 3]) ∧
    decrypt_file_data (some [107]) (xorBytes [107] 0 [1, 2, 3]) = some [1, 2, 3] ∧
    (∀ j, j < ([1, 2, 3] : List Nat).length →
      (xorBytes [107] 0 [1, 2, 3]).getD j 0 =
        Nat.xor (([1, 2, 3] : List Nat).getD j 0)
          (([107] : List Nat).getD (j % ([107] : List Nat).length) 0)) ∧
    encrypt_file_data (some [107]) [] = some [] :=
  xor_transform_involution [107] [1, 2, 3] (by decide)

/-- C7 counterexample: with the empty secret and the **empty** input, both
transforms return the empty byte string successfully (the zero-iteration
loop never hits the `ZeroDivisionError`), instead of failing as claimed. -/
theorem empty_key_empty_input_cex :
    decrypt_file_data (some []) [] = some [] ∧
    encrypt_file_data (some []) [] = some [] ∧
    decrypt_file_data (some []) [] ≠ none := by decide

/-- C7 amended: with the empty secret the transform fails (returns the
error value, with no partial output) for every **non-empty** input; the
empty input is the single exception and yields the empty output. -/
theorem empty_key_fails_on_nonempty (d : List Nat) (hd : d ≠ []) :
    decrypt_file_data (some []) d = none ∧ encrypt_file_data (some []) d = none := by
  obtain ⟨b, rest, rfl⟩ := List.exists_cons_of_ne_nil hd
  exact ⟨rfl, rfl⟩

/-- Witness for the amended C7 at the one-byte input `[5]`. -/
theorem empty_key_fails_on_nonempty_witness :
    decrypt_file_data (some []) [5] = none ∧ encrypt_file_data (some []) [5] = none :=
  empty_key_fails_on_nonempty [5] (by decide)

/-- C8: if any chunk artifact with index below the declared total is
missing, `reassemble_chunks` returns `False` and the entire server state —
the tracker entry included — is unchanged. -/
theorem reassemble_missing_chunk_preserves_state (st : ServerState) (name : List Char)
    (N : Nat) (h : ∃ i, i < N ∧ lookupKV st.chunkFS (sanitize_filename name, i) = none) :
    reassemble_chunks st name N = (st, false) := by
  obtain ⟨i, hi, hnone⟩ := h
  have hall : ((List.range N).all
      (fun i => (lookupKV st.chunkFS (sanitize_filename name, i)).isSome)) = false := by
    rw [List.all_eq_false]
    exact ⟨i, List.mem_range.mpr hi, by rw [hnone]; simp⟩
  simp only [reassemble_chunks]
  rw [hall]
  simp

/-- Witness for C8: a session whose single declared chunk is absent. -/
theorem reassemble_missing_chunk_witness :
    reassemble_chunks initState ['a'] 1 = (initState, false) :=
  reassemble_missing_chunk_preserves_state initState ['a'] 1 ⟨0, by decide, rfl⟩

/-- C9 (code-bug evaluation): on the 258-character input `"ab." ++ "x"*255`
the sanitized name is `"." ++ "x"*255`, of length 256 — the truncation step
exceeds `MAX_FILENAME_LENGTH` whenever the extension is longer than 245
characters, although the extension itself is preserved unchanged. -/
theorem sanitize_filename_length_bug :
    sanitize_filename ('a' :: 'b' :: '.' :: List.replicate 255 'x') =
      '.' :: List.replicate 255 'x' ∧
    ('.' :: List.replicate 255 'x').length = 256 ∧
    MAX_FILENAME_LENGTH < 256 := by
  refine ⟨by decide, by simp, by decide⟩

/-! ## Evaluating one chunk request -/

theorem validate_chunk_params_ok (i N : Nat) (hi : i < N) (hN1 : 1 ≤ N) (hN2 : N ≤ 10000) :
    validate_chunk_params (i : Int) (N : Int) = some (i, N) := by
  rw [validate_chunk_params, if_neg (by omega), if_neg (by omega), if_neg (by omega)]
  simp

theorem validate_chunk_params_sound {ci tc : Int} {i N : Nat}
    (h : validate_chunk_params ci tc = some (i, N)) : i < N ∧ 1 ≤ N ∧ N ≤ 10000 := by
  rw [validate_chunk_params] at h
  by_cases h1 : ci < 0 ∨ tc < 1
  · rw [if_pos h1] at h; cases h
  · rw [if_neg h1] at h
    by_cases h2 : tc ≤ ci
    · rw [if_pos h2] at h; cases h
    · rw [if_neg h2] at h
      by_cases h3 : 10000 < tc
      · rw [if_pos h3] at h; cases h
      · rw [if_neg h3] at h
        injection h with h
        injection h with ha hb
        omega

theorem handleChunk_eval_new (st : ServerState) (name : List Char) (i N : Nat) (d : List Nat)
    (hi : i < N) (hN1 : 1 ≤ N) (hN2 : N ≤ 10000)
    (hlook : lookupKV st.tracker name = none) :
    handleChunk st name (i : Int) (N : Int) d =
      (if (insert i (∅ : Finset Nat)).card = N then
        match reassemble_chunks
            ⟨setKV (setKV st.tracker name ⟨N, ∅, sanitize_filename name⟩) name
                ⟨N, insert i ∅, sanitize_filename name⟩,
              setKV st.chunkFS (sanitize_filename name, i) d, st.uploadFS⟩ name N with
        | (st2, true) => (st2, PostResult.okAssembled)
        | (st2, false) => (st2, PostResult.errAssembleFailed)
      else
        (⟨setKV (setKV st.tracker name ⟨N, ∅, sanitize_filename name⟩) name
            ⟨N, insert i ∅, sanitize_filename name⟩,
          setKV st.chunkFS (sanitize_filename name, i) d, st.uploadFS⟩,
          PostResult.okChunkReceived)) := by
  obtain ⟨-, p2, -⟩ := sanitize_filename_props name
  have hsec := chunkFileName_ok (fun hm => (p2 _ hm).1 rfl) i
  simp only [handleChunk, validate_chunk_params_ok i N hi hN1 hN2, hlook, Option.getD_none,
    Option.isSome_none, Bool.false_eq_true, if_false, if_neg (by simp : ¬ (N ≠ N)),
    hsec, not_true, if_false]

theorem handleChunk_eval_got (st : ServerState) (name : List Char) (i N : Nat) (d : List Nat)
    (sess0 : Session)
    (hi : i < N) (hN1 : 1 ≤ N) (hN2 : N ≤ 10000)
    (hlook : lookupKV st.tracker name = some sess0) (htot : sess0.total_chunks = N) :
    handleChunk st name (i : Int) (N : Int) d =
      (if (insert i sess0.received_chunks).card = N then
        match reassemble_chunks
            ⟨setKV st.tracker name { sess0 with received_chunks := insert i sess0.received_chunks },
              setKV st.chunkFS (sanitize_filename name, i) d, st.uploadFS⟩ name N with
        | (st2, true) => (st2, PostResult.okAssembled)
        | (st2, false) => (st2, PostResult.errAssembleFailed)
      else
        (⟨setKV st.tracker name { sess0 with received_chunks := insert i sess0.received_chunks },
          setKV st.chunkFS (sanitize_filename name, i) d, st.uploadFS⟩,
          PostResult.okChunkReceived)) := by
  obtain ⟨-, p2, -⟩ := sanitize_filename_props name
  have hsec := chunkFileName_ok (fun hm => (p2 _ hm).1 rfl) i
  simp only [handleChunk, validate_chunk_params_ok i N hi hN1 hN2, hlook, Option.getD_some,
    Option.isSome_some, if_true, if_neg (by simp [htot] : ¬ (sess0.total_chunks ≠ N)),
    hsec, not_true, if_false]

/-! ## Last-payload bookkeeping -/

theorem lastPayload?_append_same (p : List (Nat × List Nat)) (i : Nat) (d : List Nat) :
    lastPayload? (p ++ [(i, d)]) i = some d := by
  induction p with
  | nil => simp [lastPayload?]
  | cons e rest ih =>
    obtain ⟨j, x⟩ := e
    rw [List.cons_append,
      show lastPayload? ((j, x) :: (rest ++ [(i, d)])) i =
        (match lastPayload? (rest ++ [(i, d)]) i with
          | some d' => some d'
          | none => if j = i then some x else none) from rfl, ih]

theorem lastPayload?_append_ne (p : List (Nat × List Nat)) {i j : Nat} (d : List Nat)
    (h : j ≠ i) : lastPayload? (p ++ [(j, d)]) i = lastPayload? p i := by
  induction p with
  | nil => simp [lastPayload?, h]
  | cons e rest ih =>
    obtain ⟨j', x⟩ := e
    rw [List.cons_append,
      show lastPayload? ((j', x) :: (rest ++ [(j, d)])) i =
        (match lastPayload? (rest ++ [(j, d)]) i with
          | some d' => some d'
          | none => if j' = i then some x else none) from rfl, ih,
      show lastPayload? ((j', x) :: rest) i =
        (match lastPayload? rest i with
          | some d' => some d'
          | none => if j' = i then some x else none) from rfl]

theorem lastPayload?_isSome_iff (p : List (Nat × List Nat)) (i : Nat) :
    (lastPayload? p i).isSome = true ↔ i ∈ p.map Prod.fst := by
  induction p with
  | nil => simp [lastPayload?]
  | cons e rest ih =>
    obtain ⟨j, x⟩ := e
    rw [show lastPayload? ((j, x) :: rest) i =
      (match lastPayload? rest i with
        | some d' => some d'
        | none => if j = i then some x else none) from rfl]
    cases h : lastPayload? rest i with
    | some d' =>
      simp only [List.map_cons, List.mem_cons]
      constructor
      · intro _
        exact Or.inr (ih.mp (by rw [h]; rfl))
      · intro _; rfl
    | none =>
      by_cases hj : j = i
      · simp [hj, List.mem_cons]
      · rw [if_neg hj]
        simp only [List.map_cons, List.mem_cons]
        rw [h] at ih
        have hrest : i ∉ List.map Prod.fst rest := fun hm => by
          have := ih.mpr hm
          simp at this
        constructor
        · intro hs; simp at hs
        · rintro (rfl | hm)
          · exact absurd rfl hj
          · exact absurd hm hrest

/-! ## Successful reassembly -/

theorem reassemble_chunks_success (st : ServerState) (name : List Char) (N : Nat)
    (hall : ∀ j, j < N → (lookupKV st.chunkFS (sanitize_filename name, j)).isSome = true) :
    reassemble_chunks st name N =
      (⟨eraseKV st.tracker name,
        (List.range N).foldl (fun m j => eraseKV m (sanitize_filename name, j)) st.chunkFS,
        setKV st.uploadFS (sanitize_filename name)
          (((List.range N).map
            (fun j => (lookupKV st.chunkFS (sanitize_filename name, j)).getD [])).flatten)⟩,
        true) := by
  have h1 : ((List.range N).all
      (fun j => (lookupKV st.chunkFS (sanitize_filename name, j)).isSome)) = true :=
    List.all_eq_true.mpr fun j hj => hall j (List.mem_range.mp hj)
  simp only [reassemble_chunks, h1, sanitize_resolvesWithin, if_true]

/-! ## One chunk request preserves the trace invariant or assembles -/

theorem handleChunk_step (st0 st : ServerState) (name : List Char) (N : Nat)
    (p : List (Nat × List Nat)) (i : Nat) (d : List Nat)
    (hN1 : 1 ≤ N) (hN2 : N ≤ 10000) (hi : i < N)
    (hidxp : ∀ r ∈ p, r.1 < N)
    (hinv : TraceInv st0 name N p st) :
    (((p ++ [(i, d)]).map Prod.fst).toFinset ≠ Finset.range N →
      (handleChunk st name (i : Int) (N : Int) d).2 = PostResult.okChunkReceived ∧
      TraceInv st0 name N (p ++ [(i, d)]) (handleChunk st name (i : Int) (N : Int) d).1) ∧
    (((p ++ [(i, d)]).map Prod.fst).toFinset = Finset.range N →
      (handleChunk st name (i : Int) (N : Int) d).2 = PostResult.okAssembled ∧
      lookupKV (handleChunk st name (i : Int) (N : Int) d).1.uploadFS (sanitize_filename name) =
        some (((List.range N).map
          (fun j => (lastPayload? (p ++ [(i, d)]) j).getD [])).flatten)) := by
  obtain ⟨htr, hch, hup⟩ := hinv
  have hS' : ((p ++ [(i, d)]).map Prod.fst).toFinset = insert i (p.map Prod.fst).toFinset := by
    rw [List.map_append, List.toFinset_append]
    simp only [List.map_cons, List.map_nil]
    rw [show ([i] : List Nat).toFinset = {i} from rfl, Finset.union_comm, ← Finset.insert_eq]
  -- the state after the bookkeeping of this request, by the two tracker cases
  have hmain : handleChunk st name (i : Int) (N : Int) d =
      (if (insert i (p.map Prod.fst).toFinset).card = N then
        match reassemble_chunks
            ⟨setKV st.tracker name ⟨N, insert i (p.map Prod.fst).toFinset, sanitize_filename name⟩,
              setKV st.chunkFS (sanitize_filename name, i) d, st.uploadFS⟩ name N with
        | (st2, true) => (st2, PostResult.okAssembled)
        | (st2, false) => (st2, PostResult.errAssembleFailed)
      else
        (⟨setKV st.tracker name ⟨N, insert i (p.map Prod.fst).toFinset, sanitize_filename name⟩,
          setKV st.chunkFS (sanitize_filename name, i) d, st.uploadFS⟩,
          PostResult.okChunkReceived)) := by
    by_cases hp : p = []
    · subst hp
      rw [if_pos rfl] at htr
      rw [handleChunk_eval_new st name i N d hi hN1 hN2 htr]
      rw [show (([] : List (Nat × List Nat)).map Prod.fst).toFinset = (∅ : Finset Nat) from rfl]
      rw [setKV_setKV_self]
    · rw [if_neg hp] at htr
      rw [handleChunk_eval_got st name i N d _ hi hN1 hN2 htr rfl]
  -- the invariant for the extended trace holds at the bookkeeping state
  have hinv' : TraceInv st0 name N (p ++ [(i, d)])
      ⟨setKV st.tracker name ⟨N, insert i (p.map Prod.fst).toFinset, sanitize_filename name⟩,
        setKV st.chunkFS (sanitize_filename name, i) d, st.uploadFS⟩ := by
    refine ⟨?_, ?_, hup⟩
    · rw [if_neg (by simp), lookupKV_setKV_self, hS']
    · intro j
      by_cases hj : j = i
      · subst hj
        rw [lookupKV_setKV_self, lastPayload?_append_same]
      · rw [lookupKV_setKV_ne _ _ _ _ (by simp [hj]), hch j,
          lastPayload?_append_ne p d (fun h => hj h.symm)]
  constructor
  · intro hne
    rw [hS'] at hne
    have hsub : insert i (p.map Prod.fst).toFinset ⊆ Finset.range N := by
      intro j hjmem
      rw [Finset.mem_insert] at hjmem
      rw [Finset.mem_range]
      rcases hjmem with rfl | hjmem
      · exact hi
      · rw [List.mem_toFinset, List.mem_map] at hjmem
        obtain ⟨r, hr, rfl⟩ := hjmem
        exact hidxp r hr
    have hcard : (insert i (p.map Prod.fst).toFinset).card < N := by
      have := Finset.card_lt_card (lt_of_le_of_ne hsub hne)
      rwa [Finset.card_range] at this
    rw [hmain, if_neg (by omega)]
    exact ⟨rfl, hinv'⟩
  · intro hfull
    rw [hS'] at hfull
    have hcard : (insert i (p.map Prod.fst).toFinset).card = N := by
      rw [hfull, Finset.card_range]
    obtain ⟨-, hch', -⟩ := hinv'
    have hall : ∀ j, j < N →
        (lookupKV (setKV st.chunkFS (sanitize_filename name, i) d)
          (sanitize_filename name, j)).isSome = true := by
      intro j hj
      rw [show lookupKV (setKV st.chunkFS (sanitize_filename name, i) d)
          (sanitize_filename name, j) =
        lookupKV (ServerState.mk
          (setKV st.tracker name ⟨N, insert i (p.map Prod.fst).toFinset, sanitize_filename name⟩)
          (setKV st.chunkFS (sanitize_filename name, i) d) st.uploadFS).chunkFS
          (sanitize_filename name, j) from rfl, hch' j]
      have hjm : j ∈ (p ++ [(i, d)]).map Prod.fst := by
        rw [← List.mem_toFinset, hS', hfull, Finset.mem_range]
        exact hj
      obtain ⟨dj, hdj⟩ := Option.isSome_iff_exists.mp ((lastPayload?_isSome_iff _ j).mpr hjm)
      rw [hdj]
      rfl
    rw [hmain, if_pos hcard,
      reassemble_chunks_success _ name N hall]
    refine ⟨rfl, ?_⟩
    rw [lookupKV_setKV_self]
    congr 1
    congr 1
    apply List.map_congr_left
    intro j hj
    rw [hch' j]
    have hjm : j ∈ (p ++ [(i, d)]).map Prod.fst := by
      rw [← List.mem_toFinset, hS', hfull]
      exact hj
    obtain ⟨dj, hdj⟩ := Option.isSome_iff_exists.mp ((lastPayload?_isSome_iff _ j).mpr hjm)
    rw [hdj]

/-! ## Running a full chunk trace -/

theorem runChunks_spec (st0 : ServerState) (name : List Char) (N : Nat)
    (hN1 : 1 ≤ N) (hN2 : N ≤ 10000) :
    ∀ (rest p : List (Nat × List Nat)) (st : ServerState),
      rest ≠ [] →
      TraceInv st0 name N p st →
      (∀ r ∈ p ++ rest, r.1 < N) →
      ((p ++ rest).map Prod.fst).toFinset = Finset.range N →
      (∀ k, k < (p ++ rest).length →
        (((p ++ rest).take k).map Prod.fst).toFinset ≠ Finset.range N) →
      (runChunks name N st rest).2 =
        List.replicate (rest.length - 1) PostResult.okChunkReceived ++
          [PostResult.okAssembled] ∧
      lookupKV (runChunks name N st rest).1.uploadFS (sanitize_filename name) =
        some (((List.range N).map
          (fun j => (lastPayload? (p ++ rest) j).getD [])).flatten) := by
  intro rest
  induction rest with
  | nil => intro p st h; exact absurd rfl h
  | cons r rest' ih =>
    intro p st _ hinv hidx hfull hmin
    obtain ⟨i, d⟩ := r
    have hi : i < N := hidx (i, d) (by simp)
    have hidxp : ∀ r ∈ p, r.1 < N := fun r hr => hidx r (List.mem_append_left _ hr)
    have hstep := handleChunk_step st0 st name N p i d hN1 hN2 hi hidxp hinv
    have hrun : runChunks name N st ((i, d) :: rest') =
        ((runChunks name N (handleChunk st name (i : Int) (N : Int) d).1 rest').1,
          (handleChunk st name (i : Int) (N : Int) d).2 ::
            (runChunks name N (handleChunk st name (i : Int) (N : Int) d).1 rest').2) := rfl
    by_cases hrest : rest' = []
    · subst hrest
      have hfull' : ((p ++ [(i, d)]).map Prod.fst).toFinset = Finset.range N := by
        simpa using hfull
      obtain ⟨hres, hupl⟩ := hstep.2 hfull'
      rw [hrun]
      refine ⟨by rw [hres]; rfl, ?_⟩
      rw [show (runChunks name N (handleChunk st name (i : Int) (N : Int) d).1 []).1 =
        (handleChunk st name (i : Int) (N : Int) d).1 from rfl]
      exact hupl
    · have hinc : ((p ++ [(i, d)]).map Prod.fst).toFinset ≠ Finset.range N := by
        have hm := hmin (p.length + 1) (by
          rw [List.length_append, List.length_cons]
          have : 0 < rest'.length := List.length_pos.mpr hrest
          omega)
        rwa [show (p ++ (i, d) :: rest').take (p.length + 1) = p ++ [(i, d)] by
          rw [List.append_cons p (i, d) rest',
            show p.length + 1 = (p ++ [(i, d)]).length by simp, List.take_left]] at hm
      obtain ⟨hres, hinv'⟩ := hstep.1 hinc
      have hassoc : (p ++ [(i, d)]) ++ rest' = p ++ (i, d) :: rest' :=
        (List.append_cons p (i, d) rest').symm ▸ (List.append_assoc p [(i, d)] rest')
      have := ih (p ++ [(i, d)]) (handleChunk st name (i : Int) (N : Int) d).1 hrest hinv'
        (by rw [hassoc]; exact hidx) (by rw [hassoc]; exact hfull)
        (by rw [hassoc]; exact hmin)
      obtain ⟨hres', hupl'⟩ := this
      rw [hrun]
      constructor
      · rw [hres, hres',
          show ((i, d) :: rest').length - 1 = (rest'.length - 1) + 1 by
            have : 0 < rest'.length := List.length_pos.mpr hrest
            simp
            omega,
          List.replicate_succ]
        rfl
      · rw [hupl', hassoc]

/-- C2: starting from any state with no session for `name`, processing a
sequence of chunk requests with declared total `N` — every index below
`N`, the indices covering `0..N-1` only once the final request arrives —
answers every non-final request with a plain chunk receipt, invokes
assembly exactly at the final request, and stores under the sanitized name
the concatenation, in strict ascending index order, of the chunk
artifacts' bytes (for each index, the payload of the last request that
carried it). -/
theorem chunked_upload_assembly (st0 : ServerState) (name : List Char) (N : Nat)
    (reqs : List (Nat × List Nat))
    (h0 : lookupKV st0.tracker name = none)
    (hN1 : 1 ≤ N) (hN2 : N ≤ 10000)
    (hidx : ∀ r ∈ reqs, r.1 < N)
    (hfull : (reqs.map Prod.fst).toFinset = Finset.range N)
    (hmin : ∀ k, k < reqs.length → ((reqs.take k).map Prod.fst).toFinset ≠ Finset.range N) :
    (runChunks name N st0 reqs).2 =
      List.replicate (reqs.length - 1) PostResult.okChunkReceived ++
        [PostResult.okAssembled] ∧
    lookupKV (runChunks name N st0 reqs).1.uploadFS (sanitize_filename name) =
      some (((List.range N).map (fun j => (lastPayload? reqs j).getD [])).flatten) := by
  have hreqs : reqs ≠ [] := by
    rintro rfl
    rw [List.map_nil, List.toFinset_nil] at hfull
    rw [eq_comm, Finset.range_eq_empty_iff] at hfull
    omega
  have hinv0 : TraceInv st0 name N [] st0 :=
    ⟨by rw [if_pos rfl]; exact h0, fun i => rfl, rfl⟩
  have := runChunks_spec st0 name N hN1 hN2 reqs [] st0 hreqs hinv0
    (by simpa using hidx) (by simpa using hfull) (by simpa using hmin)
  simpa using this

/-- Witness for C2: the 2-chunk upload of the spec's out-of-order
scenario shape, chunks sent in order 1, 0. -/
theorem chunked_upload_assembly_witness :
    (runChunks ['a'] 2 initState [(1, [9]), (0, [7])]).2 =
      List.replicate (([(1, [9]), (0, [7])] : List (Nat × List Nat)).length - 1)
        PostResult.okChunkReceived ++ [PostResult.okAssembled] ∧
    lookupKV (runChunks ['a'] 2 initState [(1, [9]), (0, [7])]).1.uploadFS
        (sanitize_filename ['a']) =
      some (((List.range 2).map
        (fun j => (lastPayload? [(1, [9]), (0, [7])] j).getD [])).flatten) :=
  chunked_upload_assembly initState ['a'] 2 [(1, [9]), (0, [7])] rfl (by decide) (by decide)
    (by decide) (by decide) (by decide)

/-! ## Frame properties of the tracker -/

theorem reassemble_chunks_tracker_other (st : ServerState) (nameA other : List Char)
    (N : Nat) (h : other ≠ nameA) :
    lookupKV (reassemble_chunks st nameA N).1.tracker other = lookupKV st.tracker other := by
  simp only [reassemble_chunks]
  split
  · split
    · exact lookupKV_eraseKV_ne _ _ _ h
    · rfl
  · rfl

theorem handleChunk_tracker_other (st : ServerState) (nameA other : List Char) (ci tc : Int)
    (d : List Nat) (h : other ≠ nameA) :
    lookupKV (handleChunk st nameA ci tc d).1.tracker other = lookupKV st.tracker other := by
  have htr0 : ∀ fresh : Session,
      lookupKV (if (lookupKV st.tracker nameA).isSome then st.tracker
        else setKV st.tracker nameA fresh) other = lookupKV st.tracker other := by
    intro fresh
    by_cases hs : (lookupKV st.tracker nameA).isSome
    · rw [if_pos hs]
    · rw [if_neg hs, lookupKV_setKV_ne _ _ _ _ h]
  simp only [handleChunk]
  split
  · rfl
  · split
    · exact htr0 _
    · split
      · exact htr0 _
      · split
        · split
          · rename_i st2 hre
            have h2 := congrArg Prod.fst hre
            exact (congrArg (fun s : ServerState => lookupKV s.tracker other) h2).symm.trans
              ((reassemble_chunks_tracker_other _ nameA other _ h).trans
                ((lookupKV_setKV_ne _ _ _ _ h).trans (htr0 _)))
          · rename_i st2 hre
            have h2 := congrArg Prod.fst hre
            exact (congrArg (fun s : ServerState => lookupKV s.tracker other) h2).symm.trans
              ((reassemble_chunks_tracker_other _ nameA other _ h).trans
                ((lookupKV_setKV_ne _ _ _ _ h).trans (htr0 _)))
        · exact (lookupKV_setKV_ne _ _ _ _ h).trans (htr0 _)

/-- C4 counterexample: the originals `"a."` and `"a"` are distinct but
share the storage key `"a"`.  Session B (`"a."`, 2 chunks) stores its
chunk-0 artifact; session A (`"a"`, 1 chunk) then overwrites that artifact
and its assembly deletes it — B's on-disk chunk artifact is corrupted
(present before, gone after), even though B's registry entry is intact. -/
theorem sanitize_collision_corrupts_artifacts_cex :
    (['a', '.'] : List Char) ≠ ['a'] ∧
    sanitize_filename ['a', '.'] = sanitize_filename ['a'] ∧
    lookupKV (handleChunk initState ['a', '.'] 0 2 [1]).1.chunkFS (['a'], 0) = some [1] ∧
    lookupKV (handleChunk (handleChunk initState ['a', '.'] 0 2 [1]).1 ['a'] 0 1 [2]).1.chunkFS
      (['a'], 0) = none ∧
    lookupKV (handleChunk (handleChunk initState ['a', '.'] 0 2 [1]).1 ['a'] 0 1 [2]).1.tracker
      ['a', '.'] =
      lookupKV (handleChunk initState ['a', '.'] 0 2 [1]).1.tracker ['a', '.'] := by
  decide

/-- C4 amended: chunk uploads and assembly performed under one original
name never touch the registry entry of any other original name — the
registry, keyed by the client-declared name, is collision-proof — but the
on-disk chunk artifacts of colliding sessions share their storage paths
and are not protected. -/
theorem collision_preserves_other_registry (st : ServerState) (nameA nameB : List Char)
    (ci tc : Int) (d : List Nat) (h : nameB ≠ nameA) :
    lookupKV (handleChunk st nameA ci tc d).1.tracker nameB = lookupKV st.tracker nameB :=
  handleChunk_tracker_other st nameA nameB ci tc d h

/-- Witness for the amended C4. -/
theorem collision_preserves_other_registry_witness :
    lookupKV (handleChunk initState ['a'] 0 1 [2]).1.tracker ['b'] =
      lookupKV initState.tracker ['b'] :=
  collision_preserves_other_registry initState ['a'] ['b'] 0 1 [2] (by decide)

/-! ## Read errors during reassembly (claim C5) -/

/-- C5 counterexample: with both artifacts of a 2-chunk session on disk, a
read error on chunk 1 mid-copy returns failure but leaves the destination
file in the upload root holding only chunk 0's bytes — it is not
discarded. -/
theorem read_error_partial_file_cex :
    (reassemble_chunks_readErr stC5 ['a'] 2 1).2 = false ∧
    lookupKV (reassemble_chunks_readErr stC5 ['a'] 2 1).1.uploadFS ['a'] = some [1] ∧
    lookupKV (reassemble_chunks_readErr stC5 ['a'] 2 1).1.uploadFS ['a'] ≠ none := by
  decide

/-- C5 amended: a read error on artifact `k` mid-copy surfaces the failure
(`False` is returned) and preserves the session and every chunk artifact,
but the partially written destination — the concatenation of artifacts
`0..k-1` — remains in the upload root under the storage key; it is not
discarded. -/
theorem reassemble_read_error_state (st : ServerState) (name : List Char) (N k : Nat)
    (hk : k < N)
    (hall : ∀ j, j < N → (lookupKV st.chunkFS (sanitize_filename name, j)).isSome = true) :
    (reassemble_chunks_readErr st name N k).2 = false ∧
    (reassemble_chunks_readErr st name N k).1.tracker = st.tracker ∧
    (reassemble_chunks_readErr st name N k).1.chunkFS = st.chunkFS ∧
    lookupKV (reassemble_chunks_readErr st name N k).1.uploadFS (sanitize_filename name) =
      some (((List.range k).map
        (fun j => (lookupKV st.chunkFS (sanitize_filename name, j)).getD [])).flatten) := by
  have h1 : ((List.range N).all
      (fun j => (lookupKV st.chunkFS (sanitize_filename name, j)).isSome)) = true :=
    List.all_eq_true.mpr fun j hj => hall j (List.mem_range.mp hj)
  simp only [reassemble_chunks_readErr, h1, sanitize_resolvesWithin, if_true, if_pos hk]
  exact ⟨trivial, trivial, trivial, lookupKV_setKV_self _ _ _⟩

/-- Witness for the amended C5 at the concrete 2-chunk state. -/
theorem reassemble_read_error_state_witness :
    (reassemble_chunks_readErr stC5 ['a'] 2 1).2 = false ∧
    (reassemble_chunks_readErr stC5 ['a'] 2 1).1.tracker = stC5.tracker ∧
    (reassemble_chunks_readErr stC5 ['a'] 2 1).1.chunkFS = stC5.chunkFS ∧
    lookupKV (reassemble_chunks_readErr stC5 ['a'] 2 1).1.uploadFS (sanitize_filename ['a']) =
      some (((List.range 1).map
        (fun j => (lookupKV stC5.chunkFS (sanitize_filename ['a'], j)).getD [])).flatten) :=
  reassemble_read_error_state stC5 ['a'] 2 1 (by decide) (by decide)

/-! ## The registry invariant (claim C10) -/

theorem registryInv_setKV {tr : List (List Char × Session)} {k : List Char} {s : Session}
    (hinv : RegistryInv tr) (hs : SessionOK s) : RegistryInv (setKV tr k s) := by
  intro e he
  rcases mem_setKV he with rfl | he2
  · exact hs
  · exact hinv e he2

theorem registryInv_eraseKV {tr : List (List Char × Session)} {k : List Char}
    (hinv : RegistryInv tr) : RegistryInv (eraseKV tr k) :=
  fun e he => hinv e (mem_eraseKV he)

theorem reassemble_chunks_registry (st : ServerState) (name : List Char) (N : Nat)
    (hinv : RegistryInv st.tracker) (hnd : KeysNodup st.tracker) :
    RegistryInv (reassemble_chunks st name N).1.tracker ∧
    KeysNodup (reassemble_chunks st name N).1.tracker ∧
    ∀ n s s', lookupKV st.tracker n = some s →
      lookupKV (reassemble_chunks st name N).1.tracker n = some s' →
      s' = s := by
  have hid : RegistryInv st.tracker ∧ KeysNodup st.tracker ∧
      ∀ n s s', lookupKV st.tracker n = some s →
        lookupKV st.tracker n = some s' → s' = s := by
    refine ⟨hinv, hnd, fun n s s' hs hs' => ?_⟩
    rw [hs] at hs'
    injection hs' with h
    exact h.symm
  simp only [reassemble_chunks]
  split
  · split
    · refine ⟨registryInv_eraseKV hinv, keysNodup_eraseKV _ _ hnd, ?_⟩
      intro n s s' hs hs'
      by_cases hn : n = name
      · subst hn
        rw [lookupKV_eraseKV_self _ _ hnd] at hs'
        cases hs'
      · rw [lookupKV_eraseKV_ne _ _ _ hn, hs] at hs'
        injection hs' with h
        exact h.symm
    · exact hid
  · exact hid

theorem handleChunk_registry (st : ServerState) (name : List Char) (ci tc : Int) (d : List Nat)
    (hinv : RegistryInv st.tracker) (hnd : KeysNodup st.tracker) :
    RegistryInv (handleChunk st name ci tc d).1.tracker ∧
    KeysNodup (handleChunk st name ci tc d).1.tracker ∧
    ∀ n s s', lookupKV st.tracker n = some s →
      lookupKV (handleChunk st name ci tc d).1.tracker n = some s' →
      s'.total_chunks = s.total_chunks := by
  have hid : RegistryInv st.tracker ∧ KeysNodup st.tracker ∧
      ∀ n s s', lookupKV st.tracker n = some s →
        lookupKV st.tracker n = some s' → s'.total_chunks = s.total_chunks := by
    refine ⟨hinv, hnd, fun n s s' hs hs' => ?_⟩
    rw [hs] at hs'
    injection hs' with h
    rw [h]
  cases hv : validate_chunk_params ci tc with
  | none => simp only [handleChunk, hv]; exact hid
  | some pr =>
    obtain ⟨i, N⟩ := pr
    obtain ⟨hiN, hN1, hN2⟩ := validate_chunk_params_sound hv
    have hfresh : SessionOK ⟨N, ∅, sanitize_filename name⟩ :=
      ⟨hN1, hN2, by simp⟩
    simp only [handleChunk, hv]
    set sess0 := (lookupKV st.tracker name).getD ⟨N, ∅, sanitize_filename name⟩ with hsess0
    set tr0 := if (lookupKV st.tracker name).isSome then st.tracker
      else setKV st.tracker name ⟨N, ∅, sanitize_filename name⟩ with htr0
    have h_tr0_inv : RegistryInv tr0 := by
      rw [htr0]
      by_cases hs : (lookupKV st.tracker name).isSome
      · rw [if_pos hs]; exact hinv
      · rw [if_neg hs]; exact registryInv_setKV hinv hfresh
    have h_tr0_nd : KeysNodup tr0 := by
      rw [htr0]
      by_cases hs : (lookupKV st.tracker name).isSome
      · rw [if_pos hs]; exact hnd
      · rw [if_neg hs]; exact keysNodup_setKV _ _ _ hnd
    have h_tr0_pres : ∀ n s, lookupKV st.tracker n = some s → lookupKV tr0 n = some s := by
      intro n s hs
      rw [htr0]
      by_cases hso : (lookupKV st.tracker name).isSome
      · rw [if_pos hso]; exact hs
      · rw [if_neg hso]
        by_cases hn : n = name
        · subst hn
          rw [hs] at hso
          exact absurd rfl hso
        · rw [lookupKV_setKV_ne _ _ _ _ hn]; exact hs
    have h_sess0_ok : SessionOK sess0 := by
      rw [hsess0]
      cases hl : lookupKV st.tracker name with
      | none => exact hfresh
      | some s0 => exact hinv (name, s0) (lookupKV_mem _ _ _ hl)
    have h_sess0_st : ∀ s, lookupKV st.tracker name = some s → sess0 = s := by
      intro s hs
      rw [hsess0, hs]
      rfl
    have h_frame : RegistryInv tr0 ∧ KeysNodup tr0 ∧
        ∀ n s s', lookupKV st.tracker n = some s →
          lookupKV tr0 n = some s' → s'.total_chunks = s.total_chunks := by
      refine ⟨h_tr0_inv, h_tr0_nd, fun n s s' hs hs' => ?_⟩
      rw [h_tr0_pres n s hs] at hs'
      injection hs' with h
      rw [h]
    split
    · exact h_frame
    · rename_i hmis
      have htot : sess0.total_chunks = N := by
        by_contra hne
        exact hmis hne
      split
      · exact h_frame
      · have hsess1_ok :
            SessionOK { sess0 with received_chunks := insert i sess0.received_chunks } := by
          refine ⟨?_, ?_, ?_⟩
          · show 1 ≤ sess0.total_chunks
            rw [htot]; exact hN1
          · show sess0.total_chunks ≤ 10000
            rw [htot]; exact hN2
          · intro j hj
            show j < sess0.total_chunks
            rcases Finset.mem_insert.mp hj with rfl | hj2
            · rw [htot]; exact hiN
            · exact h_sess0_ok.2.2 j hj2
        have hinv1 : RegistryInv (setKV tr0 name
            { sess0 with received_chunks := insert i sess0.received_chunks }) :=
          registryInv_setKV h_tr0_inv hsess1_ok
        have hnd1 : KeysNodup (setKV tr0 name
            { sess0 with received_chunks := insert i sess0.received_chunks }) :=
          keysNodup_setKV _ _ _ h_tr0_nd
        have hpres1 : ∀ n s, lookupKV st.tracker n = some s →
            ∃ s'', lookupKV (setKV tr0 name
              { sess0 with received_chunks := insert i sess0.received_chunks }) n = some s'' ∧
              s''.total_chunks = s.total_chunks := by
          intro n s hs
          by_cases hn : n = name
          · subst hn
            refine ⟨_, lookupKV_setKV_self _ _ _, ?_⟩
            rw [show ({ sess0 with received_chunks := insert i sess0.received_chunks} :
              Session).total_chunks = sess0.total_chunks from rfl, h_sess0_st s hs]
          · exact ⟨s, by rw [lookupKV_setKV_ne _ _ _ _ hn]; exact h_tr0_pres n s hs, rfl⟩
        split
        · split
          · rename_i st2 hre
            obtain ⟨ri, rn, rp⟩ := reassemble_chunks_registry
              ⟨setKV tr0 name { sess0 with received_chunks := insert i sess0.received_chunks },
                setKV st.chunkFS (sanitize_filename name, i) d, st.uploadFS⟩ name N hinv1 hnd1
            rw [hre] at ri rn rp
            refine ⟨ri, rn, fun n s s' hs hs' => ?_⟩
            obtain ⟨s'', hs'', ht⟩ := hpres1 n s hs
            rw [rp n s'' s' hs'' hs']
            exact ht
          · rename_i st2 hre
            obtain ⟨ri, rn, rp⟩ := reassemble_chunks_registry
              ⟨setKV tr0 name { sess0 with received_chunks := insert i sess0.received_chunks },
                setKV st.chunkFS (sanitize_filename name, i) d, st.uploadFS⟩ name N hinv1 hnd1
            rw [hre] at ri rn rp
            refine ⟨ri, rn, fun n s s' hs hs' => ?_⟩
            obtain ⟨s'', hs'', ht⟩ := hpres1 n s hs
            rw [rp n s'' s' hs'' hs']
            exact ht
        · refine ⟨hinv1, hnd1, fun n s s' hs hs' => ?_⟩
          obtain ⟨s'', hs'', ht⟩ := hpres1 n s hs
          rw [hs''] at hs'
          injection hs' with h
          rw [h] at ht
          exact ht

/-- C10: every upload request — accepted or rejected, chunked or
single-shot — preserves the registry invariant (each tracked session has
`1 ≤ total_chunks ≤ 10000` and every received index below it, with
distinct keys), and never changes the declared chunk count of a session
that exists before and after the request. -/
theorem registry_invariant_preserved (st : ServerState) (serverKey : Option (List Nat))
    (oname : Option (List Char)) (ci tc : Option Int) (fd : Option (List Nat))
    (hinv : RegistryInv st.tracker) (hnd : KeysNodup st.tracker) :
    RegistryInv (do_POST_core st serverKey oname ci tc fd).1.tracker ∧
    KeysNodup (do_POST_core st serverKey oname ci tc fd).1.tracker ∧
    ∀ n s s', lookupKV st.tracker n = some s →
      lookupKV (do_POST_core st serverKey oname ci tc fd).1.tracker n = some s' →
      s'.total_chunks = s.total_chunks := by
  have hid : RegistryInv st.tracker ∧ KeysNodup st.tracker ∧
      ∀ n s s', lookupKV st.tracker n = some s →
        lookupKV st.tracker n = some s' → s'.total_chunks = s.total_chunks := by
    refine ⟨hinv, hnd, fun n s s' hs hs' => ?_⟩
    rw [hs] at hs'
    injection hs' with h
    rw [h]
  simp only [do_POST_core]
  split
  · split
    · exact hid
    · split
      · exact hid
      · split
        · exact hid
        · split
          · exact handleChunk_registry st _ _ _ _ hinv hnd
          · split
            · exact hid
            · exact hid
  · exact hid

/-- Witness for C10: a rejected chunked request (bad index) against a
one-session state. -/
theorem registry_invariant_preserved_witness :
    RegistryInv (do_POST_core stC5 (some [107]) (some ['a']) (some 5) (some 2)
      (some [1])).1.tracker ∧
    KeysNodup (do_POST_core stC5 (some [107]) (some ['a']) (some 5) (some 2)
      (some [1])).1.tracker ∧
    ∀ n s s', lookupKV stC5.tracker n = some s →
      lookupKV (do_POST_core stC5 (some [107]) (some ['a']) (some 5) (some 2)
        (some [1])).1.tracker n = some s' →
      s'.total_chunks = s.total_chunks :=
  registry_invariant_preserved stC5 (some [107]) (some ['a']) (some 5) (some 2) (some [1])
    (by
      intro e he
      rcases List.mem_cons.mp he with rfl | he2
      · exact ⟨by decide, by decide, by decide⟩
      · cases he2)
    (by simp [KeysNodup, stC5])

end ExfilServer
